import Mathlib

/-!
Verification of the messenger-rag batch-embedding pipeline
(src/embeddings_runpod/embed_chunks.py, embed_chunks_v2.py, embed_via_http.py).

The definitions below are a shallow embedding of the Python sources:
chunk records become a Lean structure, the JSONL loaders become recursive
functions over a list of raw lines (a raw line either parses to a chunk or
is malformed), and the batch processor becomes a fold over request batches
threading an explicit processing state.  The embedding service is an
oracle parameter: a function from the submitted list of texts to an
optional list of vectors, where the value none models a failed call
(exception / non-2xx status / timeout) and a returned list models the
parsed embeddings field of a successful response.
-/

set_option maxRecDepth 40000

/-- EMBED_BATCH_SIZE from the scripts: chunks per embedding API call. -/
def EMBED_BATCH_SIZE : Nat := 25

/-- FILE_BATCH_SIZE from the scripts: chunks per output file. -/
def FILE_BATCH_SIZE : Nat := 100

/-- A chunk record.  chunk_id, text and any further metadata are opaque to the
pipeline, so they are modelled as Nat payloads; is_indexable is the optional
usable flag of the JSON object (none when the field is absent); embedding is
the optional attached vector (none for a freshly loaded chunk). -/
structure Chunk where
  chunk_id : Nat
  text : Nat
  is_indexable : Option Bool
  meta : Nat
  embedding : Option (List Int)
deriving DecidableEq

/-- chunk.get ('is_indexable', True) from the loaders. -/
def usable (c : Chunk) : Bool := c.is_indexable.getD true

/-- chunk ["embedding"] = emb : attach a vector, leaving every other field as is. -/
def setEmbedding (c : Chunk) (v : List Int) : Chunk := { c with embedding := some v }

/-- One line of the JSONL record store: either a well-formed record or a
malformed line on which json.loads would raise. -/
inductive RawLine
  | ok (c : Chunk)
  | bad
deriving DecidableEq

/-- The error raised by json.loads on a malformed line. -/
inductive LoadError
  | parse_error
deriving DecidableEq

/-- The count-limit test shared by both loaders:
count is not None and len (chunks) >= count. -/
def countReached (count : Option Nat) (n : Nat) : Bool :=
  match count with
  | some k => k ≤ n
  | none => false

/-- Loop of load_indexable_chunks (embed_chunks_v2.py, lines 43-60): parse each
line; skip non-indexable lines counting them in skipped; skip a usable line
while len (chunks) + skipped < offset; stop before appending once the count
limit is reached; otherwise append. -/
def load_indexable_chunksAux (offset : Nat) (count : Option Nat) :
    List RawLine → List Chunk → Nat → Except LoadError (List Chunk × Nat)
  | [], chunks, skipped => .ok (chunks, skipped)
  | .bad :: _, _, _ => .error .parse_error
  | .ok c :: ls, chunks, skipped =>
    if usable c = false then
      load_indexable_chunksAux offset count ls chunks (skipped + 1)
    else if chunks.length + skipped < offset then
      load_indexable_chunksAux offset count ls chunks skipped
    else if countReached count chunks.length then
      .ok (chunks, skipped)
    else
      load_indexable_chunksAux offset count ls (chunks ++ [c]) skipped

/-- load_indexable_chunks of embed_chunks_v2.py. -/
def load_indexable_chunks (offset : Nat) (count : Option Nat) (lines : List RawLine) :
    Except LoadError (List Chunk × Nat) :=
  load_indexable_chunksAux offset count lines [] 0

/-- Loop of load_chunks (embed_chunks.py, lines 46-52): skip the first offset
raw lines without parsing them, stop (without parsing) once the count limit is
reached, otherwise parse the line and append it. -/
def load_chunksAux (count : Option Nat) :
    List RawLine → Nat → List Chunk → Except LoadError (List Chunk)
  | [], _, chunks => .ok chunks
  | _ :: ls, off + 1, chunks => load_chunksAux count ls off chunks
  | l :: ls, 0, chunks =>
    if countReached count chunks.length then
      .ok chunks
    else
      match l with
      | .bad => .error .parse_error
      | .ok c => load_chunksAux count ls 0 (chunks ++ [c])

/-- load_chunks of embed_chunks.py. -/
def load_chunks (offset : Nat) (count : Option Nat) (lines : List RawLine) :
    Except LoadError (List Chunk) :=
  load_chunksAux count lines offset []

/-- per_pod = total_chunks // n_pods (embed_chunks.py, line 149). -/
def per_pod (total n_pods : Nat) : Nat := total / n_pods

/-- The partition plan printed by the stats branch of embed_chunks.py main
(lines 151-154): worker p gets offset p * per_pod, and count per_pod for all
but the last worker, which gets total - offset. -/
def plan (total n_pods : Nat) : List (Nat × Nat) :=
  (List.range n_pods).map fun p =>
    (p * per_pod total n_pods,
      if p < n_pods - 1 then per_pod total n_pods else total - p * per_pod total n_pods)

/-- Membership of position j in an (offset, count) window. -/
def inWindow (w : Nat × Nat) (j : Nat) : Prop := w.1 ≤ j ∧ j < w.1 + w.2

/-- The local state of process_chunks (embed_via_http.py, lines 50-54), plus a
log of all embedding calls issued (each entry the submitted list of texts).
The files field records the contents of every output file written so far, in
write order. -/
structure PState where
  processed : Nat
  failed : Nat
  file_batch : List Chunk
  file_batch_num : Nat
  files : List (List Chunk)
  call_log : List (List Nat)

/-- State at the start of a worker run. -/
def initState : PState := ⟨0, 0, [], 0, [], []⟩

/-- save_batch followed by the counter bump and reset that accompany it at
every call site: write the accumulator as the next file. -/
def save_batch (s : PState) : PState :=
  { s with files := s.files ++ [s.file_batch],
           file_batch_num := s.file_batch_num + 1,
           file_batch := [] }

/-- One successfully embedded chunk: append it to the accumulator, advance the
processed counter, and flush the accumulator when it has reached
FILE_BATCH_SIZE. -/
def push_chunk (s : PState) (c : Chunk) : PState :=
  if FILE_BATCH_SIZE ≤ (s.file_batch ++ [c]).length then
    save_batch { s with file_batch := s.file_batch ++ [c], processed := s.processed + 1 }
  else
    { s with file_batch := s.file_batch ++ [c], processed := s.processed + 1 }

/-- Record one embedding call (the submitted texts) in the call log. -/
def log_call (s : PState) (ts : List Nat) : PState :=
  { s with call_log := s.call_log ++ [ts] }

/-- The body of the per-item fallback loop: one single-text embedding call; on
a result with at least one vector the chunk is enriched and pushed, otherwise
(call failure, or an empty embeddings list making the [0] index fail) the
failed counter is incremented. -/
def fallbackStep (embed : List Nat → Option (List (List Int)))
    (s : PState) (c : Chunk) : PState :=
  let s1 := log_call s [c.text]
  match embed [c.text] with
  | some (v :: _) => push_chunk s1 (setEmbedding c v)
  | _ => { s1 with failed := s1.failed + 1 }

/-- The success-path step: push one chunk zipped with its vector. -/
def pushPair (s : PState) (cv : Chunk × List Int) : PState :=
  push_chunk s (setEmbedding cv.1 cv.2)

/-- One iteration of the batch loop: a group call with all texts of the group;
on success each chunk is zipped with its vector and pushed; on failure every
chunk of the group goes through the per-item fallback. -/
def process_group (embed : List Nat → Option (List (List Int)))
    (s : PState) (g : List Chunk) : PState :=
  let s1 := log_call s (g.map Chunk.text)
  match embed (g.map Chunk.text) with
  | some vecs => (g.zip vecs).foldl pushPair s1
  | none => g.foldl (fallbackStep embed) s1

/-- chunks [i:i+k] slicing of the batch loop, with the list length as fuel so
that the definition is structurally recursive and computable by the kernel. -/
def splitIntoGroupsFuel (k : Nat) : Nat → List Chunk → List (List Chunk)
  | _, [] => []
  | 0, _ => []
  | fuel + 1, l => l.take k :: splitIntoGroupsFuel k fuel (l.drop k)

/-- The request batches of the loop for i in range (0, total, k). -/
def splitIntoGroups (k : Nat) (l : List Chunk) : List (List Chunk) :=
  splitIntoGroupsFuel k l.length l

/-- The final flush: save any remaining non-empty accumulator. -/
def finalize (s : PState) : PState :=
  if s.file_batch = [] then s else save_batch s

/-- process_chunks of embed_via_http.py (lines 46-107): fold the batch loop
over the request batches and flush the remainder.  embed_chunks.py and
embed_chunks_v2.py share this loop verbatim except that they do not keep the
failed counter. -/
def process_chunks (embed : List Nat → Option (List (List Int)))
    (chunks : List Chunk) : PState :=
  finalize ((splitIntoGroups EMBED_BATCH_SIZE chunks).foldl (process_group embed) initState)

/-- The final summary: the DONE line reports the processed count and the file
count, and a WARNING line with the failed count is printed iff failed > 0. -/
structure Summary where
  shown_processed : Nat
  shown_files : Nat
  warning : Option Nat
deriving DecidableEq

/-- The two final print statements of process_chunks (embed_via_http.py,
lines 105-107). -/
def summary (s : PState) : Summary :=
  ⟨s.processed, s.file_batch_num, if 0 < s.failed then some s.failed else none⟩

/-- The fate of one chunk in a run, as determined by the oracle answers:
successfully embedded with a vector, counted as failed after the per-item
fallback, or silently dropped when a successful group call returned fewer
vectors than texts. -/
inductive Outcome
  | embedded (c : Chunk) (v : List Int)
  | fail (c : Chunk)
  | dropped (c : Chunk)
deriving DecidableEq

/-- The original chunk of an outcome. -/
def Outcome.underlying : Outcome → Chunk
  | .embedded c _ => c
  | .fail c => c
  | .dropped c => c

/-- The enriched chunk an outcome contributes to the output, if any. -/
def Outcome.result : Outcome → Option Chunk
  | .embedded c v => some (setEmbedding c v)
  | .fail _ => none
  | .dropped _ => none

/-- Whether the outcome increments the failed counter. -/
def Outcome.isFail : Outcome → Bool
  | .fail _ => true
  | _ => false

/-- The outcome of one chunk under the per-item fallback. -/
def singleOutcome (embed : List Nat → Option (List (List Int))) (c : Chunk) : Outcome :=
  match embed [c.text] with
  | some (v :: _) => Outcome.embedded c v
  | _ => Outcome.fail c

/-- The outcomes of the chunks of one group, in order: on group-call success
the first vecs.length chunks are embedded and the rest dropped; on group-call
failure each chunk gets its fallback outcome. -/
def group_outcomes (embed : List Nat → Option (List (List Int)))
    (g : List Chunk) : List Outcome :=
  match embed (g.map Chunk.text) with
  | some vecs => List.zipWith Outcome.embedded g vecs ++ (g.drop vecs.length).map Outcome.dropped
  | none => g.map (singleOutcome embed)

/-- The embedding calls one group gives rise to: the group call, then (only
when it failed) one single-text call per chunk. -/
def group_log (embed : List Nat → Option (List (List Int)))
    (g : List Chunk) : List (List Nat) :=
  (g.map Chunk.text) ::
    (match embed (g.map Chunk.text) with
     | some _ => []
     | none => g.map fun c => [c.text])

/-- The outcomes of a whole run, group by group. -/
def run_outcomes (embed : List Nat → Option (List (List Int)))
    (chunks : List Chunk) : List Outcome :=
  (splitIntoGroups EMBED_BATCH_SIZE chunks).flatMap (group_outcomes embed)

/-- The chunks a list of outcomes contributes to the output, in order. -/
def embedded_results (outs : List Outcome) : List Chunk :=
  outs.filterMap Outcome.result

/-- A chunk with a given id and text payload, no usable flag, no embedding. -/
def mkChunk (i : Nat) : Chunk := ⟨i, i, none, 0, none⟩

/-- An oracle on which every call succeeds, answering one one-entry vector per
submitted text. -/
def allOk : List Nat → Option (List (List Int)) :=
  fun ts => some (ts.map fun t => [(t : Int)])

/-- An oracle on which every call fails. -/
def oracleNone : List Nat → Option (List (List Int)) :=
  fun _ => none

/-- An oracle that fails every multi-text call but answers single-text calls. -/
def oracleFallback : List Nat → Option (List (List Int))
  | [t] => some [[(t : Int)]]
  | _ => none

/-- An oracle whose successful answers carry a vector for the first text
only. -/
def oracleShort : List Nat → Option (List (List Int)) :=
  fun ts => some ((ts.take 1).map fun t => [(t : Int)])

/-- The 130-chunk input of the worked example in the spec. -/
def chunks130 : List Chunk := (List.range 130).map mkChunk

def chunkA : Chunk := mkChunk 0

def chunkB : Chunk := mkChunk 1

/-! ## State lemmas for the batch processor -/

/-- All chunks pushed so far, whether already written to a file or still in
the accumulator. -/
def emitted (s : PState) : List Chunk := s.files.flatten ++ s.file_batch

/-- The bookkeeping invariant of the processing loop: the accumulator is
strictly below the file bound, every written file is exactly full, and the
file counter equals the number of written files. -/
def ProcInv (s : PState) : Prop :=
  s.file_batch.length < FILE_BATCH_SIZE ∧
  (∀ f ∈ s.files, f.length = FILE_BATCH_SIZE) ∧
  s.file_batch_num = s.files.length

theorem inv_init : ProcInv initState := by
  refine ⟨by simp [initState, FILE_BATCH_SIZE], ?_, rfl⟩
  intro f hf
  simp [initState] at hf

theorem emitted_push (s : PState) (c : Chunk) :
    emitted (push_chunk s c) = emitted s ++ [c] := by
  unfold push_chunk save_batch emitted
  split <;> simp

theorem push_processed (s : PState) (c : Chunk) :
    (push_chunk s c).processed = s.processed + 1 := by
  unfold push_chunk save_batch
  split <;> rfl

theorem push_failed (s : PState) (c : Chunk) :
    (push_chunk s c).failed = s.failed := by
  unfold push_chunk save_batch
  split <;> rfl

theorem push_log (s : PState) (c : Chunk) :
    (push_chunk s c).call_log = s.call_log := by
  unfold push_chunk save_batch
  split <;> rfl

theorem inv_push (s : PState) (c : Chunk) (h : ProcInv s) : ProcInv (push_chunk s c) := by
  obtain ⟨hb, hf, hn⟩ := h
  unfold push_chunk save_batch
  by_cases hc : FILE_BATCH_SIZE ≤ (s.file_batch ++ [c]).length
  · rw [if_pos hc]
    refine ⟨by simp [FILE_BATCH_SIZE], ?_, by simp [hn]⟩
    intro f hmem
    rcases List.mem_append.mp hmem with h1 | h1
    · exact hf f h1
    · have : f = s.file_batch ++ [c] := by simpa using h1
      subst this
      simp only [List.length_append] at hc ⊢
      simp at hc ⊢
      omega
  · rw [if_neg hc]
    refine ⟨?_, hf, hn⟩
    simp only [List.length_append] at hc ⊢
    simp at hc ⊢
    omega

theorem emitted_log (s : PState) (ts : List Nat) : emitted (log_call s ts) = emitted s := rfl

theorem inv_log (s : PState) (ts : List Nat) (h : ProcInv s) : ProcInv (log_call s ts) := h

/-- Folding push_chunk over a list appends it to the emitted sequence,
advances the processed counter by its length, touches neither the failed
counter nor the call log, and preserves the invariant. -/
theorem foldl_push_spec (cs : List Chunk) (s : PState) :
    emitted (cs.foldl push_chunk s) = emitted s ++ cs ∧
    (cs.foldl push_chunk s).processed = s.processed + cs.length ∧
    (cs.foldl push_chunk s).failed = s.failed ∧
    (cs.foldl push_chunk s).call_log = s.call_log ∧
    (ProcInv s → ProcInv (cs.foldl push_chunk s)) := by
  induction cs generalizing s with
  | nil => simp
  | cons c cs ih =>
    obtain ⟨e, p, f, l, i⟩ := ih (push_chunk s c)
    simp only [List.foldl_cons]
    refine ⟨?_, ?_, ?_, ?_, ?_⟩
    · rw [e, emitted_push]; simp
    · rw [p, push_processed]; simp; omega
    · rw [f, push_failed]
    · rw [l, push_log]
    · intro hs; exact i (inv_push s c hs)

theorem fallbackStep_spec (embed : List Nat → Option (List (List Int)))
    (s : PState) (c : Chunk) :
    emitted (fallbackStep embed s c) = emitted s ++ embedded_results [singleOutcome embed c] ∧
    (fallbackStep embed s c).processed
      = s.processed + (embedded_results [singleOutcome embed c]).length ∧
    (fallbackStep embed s c).failed
      = s.failed + [singleOutcome embed c].countP Outcome.isFail ∧
    (fallbackStep embed s c).call_log = s.call_log ++ [[c.text]] ∧
    (ProcInv s → ProcInv (fallbackStep embed s c)) := by
  unfold fallbackStep singleOutcome
  rcases he : embed [c.text] with _ | vs
  · simp [he, embedded_results, Outcome.result, Outcome.isFail, log_call, emitted, ProcInv]
  · rcases vs with _ | ⟨v, rest⟩
    · simp [he, embedded_results, Outcome.result, Outcome.isFail, log_call, emitted, ProcInv]
    · simp only [he, embedded_results, List.filterMap_cons, Outcome.result, List.filterMap_nil,
        List.countP_cons, List.countP_nil, Outcome.isFail]
      refine ⟨?_, ?_, ?_, ?_, ?_⟩
      · rw [show (emitted s ++ [setEmbedding c v] : List Chunk)
              = emitted (log_call s [c.text]) ++ [setEmbedding c v] from rfl]
        exact emitted_push _ _
      · rw [push_processed]; rfl
      · rw [push_failed]; simp [log_call]
      · rw [push_log]; simp [log_call]
      · intro hs; exact inv_push _ _ (inv_log _ _ hs)

theorem foldl_fallback_spec (embed : List Nat → Option (List (List Int)))
    (g : List Chunk) (s : PState) :
    emitted (g.foldl (fallbackStep embed) s)
      = emitted s ++ embedded_results (g.map (singleOutcome embed)) ∧
    (g.foldl (fallbackStep embed) s).processed
      = s.processed + (embedded_results (g.map (singleOutcome embed))).length ∧
    (g.foldl (fallbackStep embed) s).failed
      = s.failed + (g.map (singleOutcome embed)).countP Outcome.isFail ∧
    (g.foldl (fallbackStep embed) s).call_log = s.call_log ++ g.map (fun c => [c.text]) ∧
    (ProcInv s → ProcInv (g.foldl (fallbackStep embed) s)) := by
  induction g generalizing s with
  | nil => simp [embedded_results]
  | cons c g ih =>
    obtain ⟨e, p, f, l, i⟩ := ih (fallbackStep embed s c)
    obtain ⟨e0, p0, f0, l0, i0⟩ := fallbackStep_spec embed s c
    simp only [List.foldl_cons, List.map_cons]
    refine ⟨?_, ?_, ?_, ?_, ?_⟩
    · rw [e, e0]
      simp only [embedded_results, List.filterMap_cons]
      cases h : Outcome.result (singleOutcome embed c) <;> simp
    · rw [p, p0]
      simp only [embedded_results, List.filterMap_cons]
      cases h : Outcome.result (singleOutcome embed c)
      · simp [embedded_results]
      · simp [embedded_results]
        omega
    · rw [f, f0]
      simp only [List.countP_cons, List.countP_nil]
      omega
    · rw [l, l0]; simp
    · intro hs; exact i (i0 hs)

theorem zip_map_set_eq_zipWith (g : List Chunk) (vs : List (List Int)) :
    (g.zip vs).map (fun cv => setEmbedding cv.1 cv.2) = List.zipWith setEmbedding g vs := by
  induction g generalizing vs with
  | nil => simp
  | cons c g ih => cases vs <;> simp [ih]

theorem results_zipWith_embedded (g : List Chunk) (vs : List (List Int)) :
    embedded_results (List.zipWith Outcome.embedded g vs) = List.zipWith setEmbedding g vs := by
  induction g generalizing vs with
  | nil => simp [embedded_results]
  | cons c g ih =>
    cases vs with
    | nil => simp [embedded_results]
    | cons v vs =>
      simp only [List.zipWith_cons_cons, embedded_results, List.filterMap_cons, Outcome.result]
      exact congrArg (List.cons (setEmbedding c v)) (ih vs)

theorem results_dropped (l : List Chunk) :
    embedded_results (l.map Outcome.dropped) = [] := by
  induction l with
  | nil => rfl
  | cons c l ih => simp [embedded_results, List.filterMap_cons, Outcome.result, ih]

theorem countP_zipWith_embedded (g : List Chunk) (vs : List (List Int)) :
    (List.zipWith Outcome.embedded g vs).countP Outcome.isFail = 0 := by
  induction g generalizing vs with
  | nil => simp
  | cons c g ih =>
    cases vs with
    | nil => simp
    | cons v vs => simp [List.countP_cons, Outcome.isFail, ih]

theorem countP_dropped (l : List Chunk) :
    (l.map Outcome.dropped).countP Outcome.isFail = 0 := by
  induction l with
  | nil => simp
  | cons c l ih => simp [List.countP_cons, Outcome.isFail, ih]

/-- One batch-loop iteration appends exactly the embedded results of the
group's outcomes to the emitted sequence, advances the processed counter by
their number, advances the failed counter by the number of fail outcomes,
extends the call log by the group's calls, and preserves the invariant. -/
theorem process_group_spec (embed : List Nat → Option (List (List Int)))
    (s : PState) (g : List Chunk) :
    emitted (process_group embed s g)
      = emitted s ++ embedded_results (group_outcomes embed g) ∧
    (process_group embed s g).processed
      = s.processed + (embedded_results (group_outcomes embed g)).length ∧
    (process_group embed s g).failed
      = s.failed + (group_outcomes embed g).countP Outcome.isFail ∧
    (process_group embed s g).call_log = s.call_log ++ group_log embed g ∧
    (ProcInv s → ProcInv (process_group embed s g)) := by
  unfold process_group group_outcomes group_log
  rcases he : embed (g.map Chunk.text) with _ | vecs
  · simp only [he]
    obtain ⟨e, p, f, l, i⟩ := foldl_fallback_spec embed g (log_call s (g.map Chunk.text))
    refine ⟨?_, ?_, ?_, ?_, ?_⟩
    · rw [e, emitted_log]
    · rw [p]; rfl
    · rw [f]; rfl
    · rw [l]; simp [log_call]
    · intro hs; exact i (inv_log _ _ hs)
  · simp only [he]
    have hfold : (g.zip vecs).foldl pushPair (log_call s (g.map Chunk.text))
        = ((g.zip vecs).map (fun cv => setEmbedding cv.1 cv.2)).foldl push_chunk
            (log_call s (g.map Chunk.text)) := by
      rw [List.foldl_map]
      rfl
    obtain ⟨e, p, f, l, i⟩ :=
      foldl_push_spec ((g.zip vecs).map (fun cv => setEmbedding cv.1 cv.2))
        (log_call s (g.map Chunk.text))
    have hres : embedded_results
        (List.zipWith Outcome.embedded g vecs ++ (g.drop vecs.length).map Outcome.dropped)
        = (g.zip vecs).map (fun cv => setEmbedding cv.1 cv.2) := by
      unfold embedded_results
      rw [List.filterMap_append]
      rw [show (List.zipWith Outcome.embedded g vecs).filterMap Outcome.result
            = embedded_results (List.zipWith Outcome.embedded g vecs) from rfl]
      rw [show ((g.drop vecs.length).map Outcome.dropped).filterMap Outcome.result
            = embedded_results ((g.drop vecs.length).map Outcome.dropped) from rfl]
      rw [results_zipWith_embedded, results_dropped, zip_map_set_eq_zipWith]
      simp
    refine ⟨?_, ?_, ?_, ?_, ?_⟩
    · rw [hfold, e, emitted_log, hres]
    · rw [hfold, p, hres]
      simp [log_call]
    · rw [hfold, f]
      rw [List.countP_append, countP_zipWith_embedded, countP_dropped]
      rfl
    · rw [hfold, l]
      simp [log_call]
    · intro hs; rw [hfold]; exact i (inv_log _ _ hs)

/-- The batch loop over a list of groups, cumulatively. -/
theorem foldl_groups_spec (embed : List Nat → Option (List (List Int)))
    (gs : List (List Chunk)) (s : PState) :
    emitted (gs.foldl (process_group embed) s)
      = emitted s ++ embedded_results (gs.flatMap (group_outcomes embed)) ∧
    (gs.foldl (process_group embed) s).processed
      = s.processed + (embedded_results (gs.flatMap (group_outcomes embed))).length ∧
    (gs.foldl (process_group embed) s).failed
      = s.failed + (gs.flatMap (group_outcomes embed)).countP Outcome.isFail ∧
    (gs.foldl (process_group embed) s).call_log
      = s.call_log ++ gs.flatMap (group_log embed) ∧
    (ProcInv s → ProcInv (gs.foldl (process_group embed) s)) := by
  induction gs generalizing s with
  | nil => simp [embedded_results]
  | cons g gs ih =>
    obtain ⟨e, p, f, l, i⟩ := ih (process_group embed s g)
    obtain ⟨e0, p0, f0, l0, i0⟩ := process_group_spec embed s g
    simp only [List.foldl_cons, List.flatMap_cons]
    refine ⟨?_, ?_, ?_, ?_, ?_⟩
    · rw [e, e0]
      simp [embedded_results, List.filterMap_append]
    · rw [p, p0]
      simp [embedded_results, List.filterMap_append]
      omega
    · rw [f, f0, List.countP_append]
      omega
    · rw [l, l0]
      simp
    · intro hs; exact i (i0 hs)

/-- The final flush preserves the emitted sequence and the counters, and under
the invariant leaves a file list in which the counter matches, every file is
within the bound, and every file except possibly the last is exactly full. -/
theorem finalize_spec (s : PState) :
    (finalize s).files.flatten = emitted s ∧
    (finalize s).processed = s.processed ∧
    (finalize s).failed = s.failed ∧
    (finalize s).call_log = s.call_log ∧
    (ProcInv s →
      ((finalize s).file_batch_num = (finalize s).files.length ∧
       (∀ i : Nat, (((finalize s).files[i]?).getD []).length ≤ FILE_BATCH_SIZE) ∧
       (∀ i, i + 1 < (finalize s).files.length →
         ((finalize s).files[i]?).map List.length = some FILE_BATCH_SIZE))) := by
  unfold finalize save_batch
  by_cases hb : s.file_batch = []
  · rw [if_pos hb]
    refine ⟨by simp [emitted, hb], rfl, rfl, rfl, ?_⟩
    rintro ⟨hlt, hfull, hnum⟩
    refine ⟨hnum, ?_, ?_⟩
    · intro i
      rcases h : s.files[i]? with _ | f
      · simp
      · have : f ∈ s.files := List.getElem?_mem h
        simp [hfull f this]
    · intro i hi
      have hi' : i < s.files.length := by omega
      rw [List.getElem?_eq_getElem hi']
      have : s.files[i] ∈ s.files := List.getElem_mem hi'
      simp [hfull _ this]
  · rw [if_neg hb]
    refine ⟨by simp [emitted], rfl, rfl, rfl, ?_⟩
    rintro ⟨hlt, hfull, hnum⟩
    refine ⟨by simp [hnum], ?_, ?_⟩
    · intro i
      rcases h : (s.files ++ [s.file_batch])[i]? with _ | f
      · simp
      · have hmem : f ∈ s.files ++ [s.file_batch] := List.getElem?_mem h
        rcases List.mem_append.mp hmem with h1 | h1
        · simp [hfull f h1]
        · have : f = s.file_batch := by simpa using h1
          subst this
          simp
          omega
    · intro i hi
      simp only [List.length_append, List.length_cons, List.length_nil] at hi
      have hi' : i < s.files.length := by omega
      rw [List.getElem?_append_left hi', List.getElem?_eq_getElem hi']
      have : s.files[i] ∈ s.files := List.getElem_mem hi'
      simp [hfull _ this]

/-- Master specification of process_chunks: the concatenation of the written
files is exactly the sequence of embedded results of the run's outcomes; the
processed counter counts them; the failed counter counts the fail outcomes;
the call log lists the calls group by group; the file counter equals the
number of files written; every file is within the bound and every file except
possibly the last is exactly full. -/
theorem process_chunks_spec (embed : List Nat → Option (List (List Int)))
    (chunks : List Chunk) :
    (process_chunks embed chunks).files.flatten
      = embedded_results (run_outcomes embed chunks) ∧
    (process_chunks embed chunks).processed
      = (embedded_results (run_outcomes embed chunks)).length ∧
    (process_chunks embed chunks).failed
      = (run_outcomes embed chunks).countP Outcome.isFail ∧
    (process_chunks embed chunks).call_log
      = (splitIntoGroups EMBED_BATCH_SIZE chunks).flatMap (group_log embed) ∧
    (process_chunks embed chunks).file_batch_num = (process_chunks embed chunks).files.length ∧
    (∀ i : Nat, (((process_chunks embed chunks).files[i]?).getD []).length ≤ FILE_BATCH_SIZE) ∧
    (∀ i, i + 1 < (process_chunks embed chunks).files.length →
      ((process_chunks embed chunks).files[i]?).map List.length = some FILE_BATCH_SIZE) := by
  unfold process_chunks run_outcomes
  obtain ⟨e, p, f, l, i⟩ :=
    foldl_groups_spec embed (splitIntoGroups EMBED_BATCH_SIZE chunks) initState
  obtain ⟨fe, fp, ff, fl, fi⟩ :=
    finalize_spec ((splitIntoGroups EMBED_BATCH_SIZE chunks).foldl (process_group embed) initState)
  have hinv := i inv_init
  obtain ⟨fn, fb, flast⟩ := fi hinv
  have hemit : emitted ((splitIntoGroups EMBED_BATCH_SIZE chunks).foldl (process_group embed)
      initState) = embedded_results
        ((splitIntoGroups EMBED_BATCH_SIZE chunks).flatMap (group_outcomes embed)) := by
    rw [e]; simp [emitted, initState]
  refine ⟨?_, ?_, ?_, ?_, fn, fb, flast⟩
  · rw [fe, hemit]
  · rw [fp, p]; simp [initState]
  · rw [ff, f]; simp [initState]
  · rw [fl, l]; simp [initState]

theorem results_embedding_isSome (outs : List Outcome) (x : Chunk)
    (hx : x ∈ embedded_results outs) : x.embedding.isSome = true := by
  unfold embedded_results at hx
  obtain ⟨o, ho, hr⟩ := List.mem_filterMap.mp hx
  cases o with
  | embedded c v =>
    simp only [Outcome.result, Option.some.injEq] at hr
    subst hr
    rfl
  | fail c => simp [Outcome.result] at hr
  | dropped c => simp [Outcome.result] at hr

theorem splitIntoGroups_of_le (k : Nat) (l : List Chunk) (h0 : l ≠ []) (hk : l.length ≤ k) :
    splitIntoGroups k l = [l] := by
  unfold splitIntoGroups
  cases l with
  | nil => exact absurd rfl h0
  | cons a t =>
    rw [show (a :: t).length = t.length + 1 from rfl]
    rw [show splitIntoGroupsFuel k (t.length + 1) (a :: t)
          = (a :: t).take k :: splitIntoGroupsFuel k t.length ((a :: t).drop k) from rfl]
    rw [List.take_of_length_le hk, List.drop_eq_nil_of_le hk]
    cases t <;> rfl

/-- C3: in every run, the failed counter counts exactly the chunks whose group
call and single-item fallback both failed (one increment each); the written
files consist exactly of the embedded results, so such a chunk (which carries
no embedding) is in no output file and contributes nothing to the processed
counter; and the final summary reports the processed count and the true file
count, with a warning carrying the failed count exactly when it is positive. -/
theorem c3_failed_chunk_isolation (embed : List Nat → Option (List (List Int)))
    (chunks : List Chunk) :
    (process_chunks embed chunks).failed
      = (run_outcomes embed chunks).countP Outcome.isFail ∧
    (process_chunks embed chunks).files.flatten
      = embedded_results (run_outcomes embed chunks) ∧
    (process_chunks embed chunks).processed
      = (embedded_results (run_outcomes embed chunks)).length ∧
    (∀ c : Chunk, Outcome.fail c ∈ run_outcomes embed chunks → c.embedding = none →
      ¬ c ∈ (process_chunks embed chunks).files.flatten) ∧
    summary (process_chunks embed chunks) =
      ⟨(process_chunks embed chunks).processed,
       (process_chunks embed chunks).files.length,
       if 0 < (process_chunks embed chunks).failed
         then some (process_chunks embed chunks).failed else none⟩ := by
  obtain ⟨hfiles, hproc, hfail, hlog, hnum, hbound, hfull⟩ := process_chunks_spec embed chunks
  refine ⟨hfail, hfiles, hproc, ?_, ?_⟩
  · intro c _ hnone hmem
    rw [hfiles] at hmem
    have := results_embedding_isSome _ _ hmem
    rw [hnone] at this
    simp at this
  · unfold summary
    rw [hnum]

/-- C3 witness: with an oracle on which every call fails, the single chunk is
a doubly-failed chunk; it is absent from the output files and the failed
counter ends at 1 while the processed counter ends at 0. -/
theorem c3_witness :
    Outcome.fail (mkChunk 0) ∈ run_outcomes oracleNone [mkChunk 0] ∧
    ¬ mkChunk 0 ∈ (process_chunks oracleNone [mkChunk 0]).files.flatten ∧
    (process_chunks oracleNone [mkChunk 0]).failed = 1 ∧
    (process_chunks oracleNone [mkChunk 0]).processed = 0 := by
  refine ⟨by decide, ?_, by decide, by decide⟩
  exact (c3_failed_chunk_isolation oracleNone [mkChunk 0]).2.2.2.1 (mkChunk 0) (by decide) rfl

/-- C4: in every run, every written output file holds at most FILE_BATCH_SIZE
(100) chunks, and every file other than the last one written holds exactly
100; only the last file may be smaller. -/
theorem c4_file_size_bound (embed : List Nat → Option (List (List Int)))
    (chunks : List Chunk) :
    (∀ i : Nat, (((process_chunks embed chunks).files[i]?).getD []).length ≤ FILE_BATCH_SIZE) ∧
    (∀ i : Nat, i + 1 < (process_chunks embed chunks).files.length →
      ((process_chunks embed chunks).files[i]?).map List.length = some FILE_BATCH_SIZE) := by
  obtain ⟨_, _, _, _, _, hbound, hfull⟩ := process_chunks_spec embed chunks
  exact ⟨hbound, hfull⟩

/-- C4 witness: in the all-success 130-chunk run there are two files; the
first (non-last) one holds exactly 100 chunks and the second is within the
bound. -/
theorem c4_witness :
    0 + 1 < (process_chunks allOk chunks130).files.length ∧
    ((process_chunks allOk chunks130).files[0]?).map List.length = some FILE_BATCH_SIZE ∧
    (((process_chunks allOk chunks130).files[1]?).getD []).length ≤ FILE_BATCH_SIZE := by
  refine ⟨by decide, ?_, ?_⟩
  · exact (c4_file_size_bound allOk chunks130).2 0 (by decide)
  · exact (c4_file_size_bound allOk chunks130).1 1

/-- C6: the worked example — 130 chunks, every call succeeding — issues six
embedding calls of 25, 25, 25, 25, 25 and 5 texts, writes two files of 100
and 30 chunks holding the enriched chunks in input order, and ends with the
processed counter at 130 and the failed counter at 0. -/
theorem c6_example_scenario :
    (process_chunks allOk chunks130).call_log.map List.length = [25, 25, 25, 25, 25, 5] ∧
    (process_chunks allOk chunks130).files.map List.length = [100, 30] ∧
    (process_chunks allOk chunks130).files.flatten
      = chunks130.map (fun c => setEmbedding c [(c.text : Int)]) ∧
    (process_chunks allOk chunks130).processed = 130 ∧
    (process_chunks allOk chunks130).failed = 0 := by
  refine ⟨by decide, by decide, by decide, by decide, by decide⟩

/-- C7: every chunk object found in an output file is an input chunk with the
embedding field set to the returned vector; the identifier, text, usable flag
and remaining metadata of the output object are those of the input chunk,
unaltered. -/
theorem c7_frame (embed : List Nat → Option (List (List Int)))
    (chunks : List Chunk) (c' : Chunk)
    (h : c' ∈ (process_chunks embed chunks).files.flatten) :
    ∃ c v, Outcome.embedded c v ∈ run_outcomes embed chunks ∧
      c' = setEmbedding c v ∧
      c'.chunk_id = c.chunk_id ∧ c'.text = c.text ∧
      c'.is_indexable = c.is_indexable ∧ c'.meta = c.meta ∧
      c'.embedding = some v := by
  obtain ⟨hfiles, _, _, _, _, _, _⟩ := process_chunks_spec embed chunks
  rw [hfiles] at h
  unfold embedded_results at h
  obtain ⟨o, ho, hr⟩ := List.mem_filterMap.mp h
  cases o with
  | embedded c v =>
    simp only [Outcome.result, Option.some.injEq] at hr
    subst hr
    exact ⟨c, v, ho, rfl, rfl, rfl, rfl, rfl, rfl⟩
  | fail c => simp [Outcome.result] at hr
  | dropped c => simp [Outcome.result] at hr

/-- C7 witness: in a one-chunk all-success run the single output chunk is the
input chunk with its embedding attached. -/
theorem c7_witness :
    setEmbedding (mkChunk 5) [(5 : Int)] ∈ (process_chunks allOk [mkChunk 5]).files.flatten ∧
    ∃ c v, Outcome.embedded c v ∈ run_outcomes allOk [mkChunk 5] ∧
      setEmbedding (mkChunk 5) [(5 : Int)] = setEmbedding c v ∧
      (setEmbedding (mkChunk 5) [(5 : Int)]).chunk_id = c.chunk_id ∧
      (setEmbedding (mkChunk 5) [(5 : Int)]).text = c.text ∧
      (setEmbedding (mkChunk 5) [(5 : Int)]).is_indexable = c.is_indexable ∧
      (setEmbedding (mkChunk 5) [(5 : Int)]).meta = c.meta ∧
      (setEmbedding (mkChunk 5) [(5 : Int)]).embedding = some v := by
  refine ⟨by decide, ?_⟩
  exact c7_frame allOk [mkChunk 5] (setEmbedding (mkChunk 5) [(5 : Int)]) (by decide)

/-- C10: in every run the total number of chunks across the written output
files equals the final processed counter, and the file count shown in the
final summary equals the number of files actually written. -/
theorem c10_output_accounting (embed : List Nat → Option (List (List Int)))
    (chunks : List Chunk) :
    ((process_chunks embed chunks).files.map List.length).sum
      = (process_chunks embed chunks).processed ∧
    (summary (process_chunks embed chunks)).shown_files
      = (process_chunks embed chunks).files.length := by
  obtain ⟨hfiles, hproc, _, _, hnum, _, _⟩ := process_chunks_spec embed chunks
  constructor
  · rw [← List.length_flatten, hfiles, hproc]
  · unfold summary
    exact hnum

theorem mem_zipWith_setEmbedding (g : List Chunk) (vs : List (List Int)) (x : Chunk)
    (hx : x ∈ List.zipWith setEmbedding g vs) : x.embedding.isSome = true := by
  induction g generalizing vs with
  | nil => simp at hx
  | cons c g ih =>
    cases vs with
    | nil => simp at hx
    | cons v vs =>
      rcases List.mem_cons.mp hx with h | h
      · subst h; rfl
      · exact ih vs h

/-- C9: when the group call of a request batch succeeds but returns fewer
vectors than texts, exactly the first vecs.length chunks are enriched (with
their vectors, in order) and written, the processed counter counts only them,
the remaining chunks of the group are silently dropped — absent from the
output, not counted as processed, not counted as failed — and no per-item
fallback call is issued (the call log holds the single group call). -/
theorem c9_truncated_group (embed : List Nat → Option (List (List Int)))
    (chunks : List Chunk) (vecs : List (List Int))
    (hlen : chunks.length ≤ EMBED_BATCH_SIZE)
    (hcall : embed (chunks.map Chunk.text) = some vecs)
    (hk : vecs.length < chunks.length) :
    (process_chunks embed chunks).files.flatten = List.zipWith setEmbedding chunks vecs ∧
    (process_chunks embed chunks).processed = vecs.length ∧
    (process_chunks embed chunks).failed = 0 ∧
    (process_chunks embed chunks).call_log = [chunks.map Chunk.text] ∧
    (∀ c ∈ chunks.drop vecs.length, c.embedding = none →
      ¬ c ∈ (process_chunks embed chunks).files.flatten) := by
  have h0 : chunks ≠ [] := by
    intro h
    rw [h] at hk
    simp at hk
  have hsplit : splitIntoGroups EMBED_BATCH_SIZE chunks = [chunks] :=
    splitIntoGroups_of_le EMBED_BATCH_SIZE chunks h0 hlen
  have houts : run_outcomes embed chunks
      = List.zipWith Outcome.embedded chunks vecs
        ++ (chunks.drop vecs.length).map Outcome.dropped := by
    unfold run_outcomes
    rw [hsplit]
    simp only [List.flatMap_cons, List.flatMap_nil, List.append_nil]
    unfold group_outcomes
    rw [hcall]
  have hres : embedded_results (run_outcomes embed chunks)
      = List.zipWith setEmbedding chunks vecs := by
    rw [houts]
    unfold embedded_results
    rw [List.filterMap_append]
    rw [show (List.zipWith Outcome.embedded chunks vecs).filterMap Outcome.result
          = embedded_results (List.zipWith Outcome.embedded chunks vecs) from rfl]
    rw [show ((chunks.drop vecs.length).map Outcome.dropped).filterMap Outcome.result
          = embedded_results ((chunks.drop vecs.length).map Outcome.dropped) from rfl]
    rw [results_zipWith_embedded, results_dropped]
    simp
  obtain ⟨hfiles, hproc, hfail, hlog, _, _, _⟩ := process_chunks_spec embed chunks
  refine ⟨?_, ?_, ?_, ?_, ?_⟩
  · rw [hfiles, hres]
  · rw [hproc, hres, List.length_zipWith]
    omega
  · rw [hfail, houts, List.countP_append, countP_zipWith_embedded, countP_dropped]
  · rw [hlog, hsplit]
    simp only [List.flatMap_cons, List.flatMap_nil, List.append_nil]
    unfold group_log
    rw [hcall]
  · intro c _ hnone hmem
    rw [hfiles, hres] at hmem
    have := mem_zipWith_setEmbedding chunks vecs c hmem
    rw [hnone] at this
    simp at this

/-- C9 witness: two chunks, a successful group call answering one vector;
only the first chunk is written and processed, nothing is failed, only the
group call is issued, and the second chunk is absent from the output. -/
theorem c9_witness :
    (process_chunks oracleShort [mkChunk 0, mkChunk 1]).files.flatten
      = [setEmbedding (mkChunk 0) [(0 : Int)]] ∧
    (process_chunks oracleShort [mkChunk 0, mkChunk 1]).processed = 1 ∧
    (process_chunks oracleShort [mkChunk 0, mkChunk 1]).failed = 0 ∧
    ¬ mkChunk 1 ∈ (process_chunks oracleShort [mkChunk 0, mkChunk 1]).files.flatten := by
  have h := c9_truncated_group oracleShort [mkChunk 0, mkChunk 1] [[(0 : Int)]]
    (by decide) (by decide) (by decide)
  refine ⟨by decide, h.2.1, h.2.2.1, ?_⟩
  exact h.2.2.2.2 (mkChunk 1) (by decide) rfl

/-! ## Equivalence of a failed group call with successful fallbacks (C5) -/

/-- Agreement of two states on everything except the call log. -/
def sameCore (s t : PState) : Prop :=
  s.processed = t.processed ∧ s.failed = t.failed ∧ s.file_batch = t.file_batch ∧
  s.file_batch_num = t.file_batch_num ∧ s.files = t.files

theorem sameCore_refl (s : PState) : sameCore s s := ⟨rfl, rfl, rfl, rfl, rfl⟩

theorem sameCore_log_left (s t : PState) (ts : List Nat) (h : sameCore s t) :
    sameCore (log_call s ts) t := h

theorem sameCore_log_both (s t : PState) (ts us : List Nat) (h : sameCore s t) :
    sameCore (log_call s ts) (log_call t us) := h

theorem sameCore_push (s t : PState) (c : Chunk) (h : sameCore s t) :
    sameCore (push_chunk s c) (push_chunk t c) := by
  obtain ⟨h1, h2, h3, h4, h5⟩ := h
  unfold push_chunk save_batch
  rw [h3, h5, h4, h1, h2]
  split <;> exact ⟨rfl, rfl, rfl, rfl, rfl⟩

theorem sameCore_failed_bump (s t : PState) (h : sameCore s t) :
    sameCore { s with failed := s.failed + 1 } { t with failed := t.failed + 1 } := by
  obtain ⟨h1, h2, h3, h4, h5⟩ := h
  exact ⟨h1, by simp [h2], h3, h4, h5⟩

theorem sameCore_foldl_pushPair (l : List (Chunk × List Int)) (s t : PState)
    (h : sameCore s t) : sameCore (l.foldl pushPair s) (l.foldl pushPair t) := by
  induction l generalizing s t with
  | nil => exact h
  | cons cv l ih =>
    exact ih (pushPair s cv) (pushPair t cv) (sameCore_push s t _ h)

/-- A failed group call followed by per-item calls that each succeed with the
chunk's own vector drives the core state exactly as the success path zipping
the group with those vectors. -/
theorem sameCore_fallback_vs_success (e : List Nat → Option (List (List Int)))
    (g : List Chunk) (vs : List (List Int))
    (hall : List.Forall₂ (fun c v => ∃ rest, e [c.text] = some (v :: rest)) g vs)
    (s t : PState) (h : sameCore s t) :
    sameCore (g.foldl (fallbackStep e) s) ((g.zip vs).foldl pushPair t) := by
  induction hall generalizing s t with
  | nil => exact h
  | @cons c v g vs hc _ ih =>
    obtain ⟨rest, hr⟩ := hc
    rw [List.zip_cons_cons, List.foldl_cons, List.foldl_cons]
    apply ih
    have hstep : fallbackStep e s c = push_chunk (log_call s [c.text]) (setEmbedding c v) := by
      unfold fallbackStep
      rw [hr]
    rw [hstep]
    exact sameCore_push _ _ _ (sameCore_log_left _ _ _ h)

/-- Two oracles that answer a group's per-item calls identically drive the
fallback loop to the same core state. -/
theorem sameCore_fallback_eq (e₁ e₂ : List Nat → Option (List (List Int)))
    (g : List Chunk) (hs : ∀ c ∈ g, e₁ [c.text] = e₂ [c.text]) (s t : PState)
    (h : sameCore s t) :
    sameCore (g.foldl (fallbackStep e₁) s) (g.foldl (fallbackStep e₂) t) := by
  induction g generalizing s t with
  | nil => exact h
  | cons c g ih =>
    rw [List.foldl_cons, List.foldl_cons]
    refine ih (fun x hx => hs x (List.mem_cons_of_mem c hx)) _ _ ?_
    have hc := hs c (List.mem_cons_self c g)
    unfold fallbackStep
    rw [hc]
    rcases e₂ [c.text] with _ | vs
    · exact sameCore_failed_bump _ _ (sameCore_log_both _ _ _ _ h)
    · rcases vs with _ | ⟨v, rest⟩
      · exact sameCore_failed_bump _ _ (sameCore_log_both _ _ _ _ h)
      · exact sameCore_push _ _ _ (sameCore_log_both _ _ _ _ h)

/-- The relation between two oracles on one request batch under which the two
runs behave identically on that batch: either the two group calls agree (and,
when both fail, so do all the per-item calls), or the first oracle's group
call fails while its per-item calls each succeed with exactly the vector the
second oracle's successful group call assigns to that chunk. -/
def relateGroup (e₁ e₂ : List Nat → Option (List (List Int))) (g : List Chunk) : Prop :=
  (e₁ (g.map Chunk.text) = e₂ (g.map Chunk.text) ∧
    (e₁ (g.map Chunk.text) = none → ∀ c ∈ g, e₁ [c.text] = e₂ [c.text])) ∨
  (e₁ (g.map Chunk.text) = none ∧
    ∃ vs, e₂ (g.map Chunk.text) = some vs ∧
      List.Forall₂ (fun c v => ∃ rest, e₁ [c.text] = some (v :: rest)) g vs)

theorem sameCore_process_group (e₁ e₂ : List Nat → Option (List (List Int)))
    (g : List Chunk) (hrel : relateGroup e₁ e₂ g) (s t : PState) (h : sameCore s t) :
    sameCore (process_group e₁ s g) (process_group e₂ t g) := by
  unfold process_group
  rcases hrel with ⟨heq, hfb⟩ | ⟨hnone, vs, hsome, hall⟩
  · rw [heq]
    rcases he : e₂ (g.map Chunk.text) with _ | vs
    · exact sameCore_fallback_eq e₁ e₂ g (hfb (heq.trans he)) _ _
        (sameCore_log_both _ _ _ _ h)
    · exact sameCore_foldl_pushPair _ _ _ (sameCore_log_both _ _ _ _ h)
  · rw [hnone, hsome]
    exact sameCore_fallback_vs_success e₁ g vs hall _ _ (sameCore_log_both _ _ _ _ h)

theorem sameCore_finalize (s t : PState) (h : sameCore s t) :
    sameCore (finalize s) (finalize t) := by
  obtain ⟨h1, h2, h3, h4, h5⟩ := h
  unfold finalize save_batch
  rw [h3, h4, h5]
  split
  · exact ⟨h1, h2, h3, h4, h5⟩
  · exact ⟨h1, h2, rfl, rfl, rfl⟩

/-- C5: over any input, if on every request batch the first oracle either
behaves as the second or fails the group call while its per-item fallback
calls succeed with the very vectors of the second oracle's successful group
call, then the two runs write identical output files (order and content) and
end with the same processed counter. -/
theorem c5_fallback_equiv (e₁ e₂ : List Nat → Option (List (List Int)))
    (chunks : List Chunk)
    (hrel : ∀ g ∈ splitIntoGroups EMBED_BATCH_SIZE chunks, relateGroup e₁ e₂ g) :
    (process_chunks e₁ chunks).files = (process_chunks e₂ chunks).files ∧
    (process_chunks e₁ chunks).processed = (process_chunks e₂ chunks).processed := by
  have main : ∀ gs : List (List Chunk), (∀ g ∈ gs, relateGroup e₁ e₂ g) →
      ∀ s t : PState, sameCore s t →
      sameCore (gs.foldl (process_group e₁) s) (gs.foldl (process_group e₂) t) := by
    intro gs
    induction gs with
    | nil => intro _ s t h; exact h
    | cons g gs ih =>
      intro hr s t h
      rw [List.foldl_cons, List.foldl_cons]
      exact ih (fun x hx => hr x (List.mem_cons_of_mem g hx)) _ _
        (sameCore_process_group e₁ e₂ g (hr g (List.mem_cons_self g gs)) s t h)
  have hcore : sameCore (process_chunks e₁ chunks) (process_chunks e₂ chunks) := by
    unfold process_chunks
    exact sameCore_finalize _ _
      (main _ hrel initState initState (sameCore_refl initState))
  exact ⟨hcore.2.2.2.2, hcore.1⟩

theorem relate_fixture :
    relateGroup oracleFallback allOk [mkChunk 0, mkChunk 1] := by
  refine Or.inr ⟨rfl, [[(0 : Int)], [(1 : Int)]], rfl, ?_⟩
  refine List.Forall₂.cons ⟨[], rfl⟩ (List.Forall₂.cons ⟨[], rfl⟩ List.Forall₂.nil)

/-- C5 witness: a two-chunk run whose group call fails under the first oracle
and succeeds under the second, with matching per-item answers, produces the
same files and the same processed count. -/
theorem c5_witness :
    relateGroup oracleFallback allOk [mkChunk 0, mkChunk 1] ∧
    (process_chunks oracleFallback [mkChunk 0, mkChunk 1]).files
      = (process_chunks allOk [mkChunk 0, mkChunk 1]).files ∧
    (process_chunks oracleFallback [mkChunk 0, mkChunk 1]).processed
      = (process_chunks allOk [mkChunk 0, mkChunk 1]).processed := by
  refine ⟨relate_fixture, ?_⟩
  refine c5_fallback_equiv oracleFallback allOk [mkChunk 0, mkChunk 1] ?_
  intro g hg
  have : splitIntoGroups EMBED_BATCH_SIZE [mkChunk 0, mkChunk 1] = [[mkChunk 0, mkChunk 1]] := by
    decide
  rw [this] at hg
  have hgeq : g = [mkChunk 0, mkChunk 1] := by simpa using hg
  rw [hgeq]
  exact relate_fixture

/-! ## Loader claims (C1, C8) -/

/-- C1: the offset of the filtered loader does not count positions among
usable records.  On a store of two usable records with offset 1 (and no count
limit) the claim demands the second usable record, the windowed suffix of the
usable subsequence; load_indexable_chunks instead compares the offset against
the number of retained records plus the number of non-indexable records seen,
never counts a record it drops for the offset, and therefore returns no
records at all. -/
theorem c1_offset_drops_usable :
    load_indexable_chunks 1 none [RawLine.ok chunkA, RawLine.ok chunkB]
      = Except.ok ([], 0) ∧
    ([chunkA, chunkB].filter usable).drop 1 = [chunkB] ∧
    usable chunkA = true ∧ usable chunkB = true := by
  refine ⟨rfl, by decide, by decide, by decide⟩

/-- C8 counterexample: a record store containing a malformed line on which the
load nevertheless succeeds and returns a windowed list — load_chunks skips the
first offset raw lines without parsing them, so a malformed line inside the
skipped prefix neither raises nor aborts. -/
theorem c8_counterexample :
    load_chunks 1 none [RawLine.bad, RawLine.ok chunkA] = Except.ok [chunkA] := rfl

theorem load_indexable_chunksAux_bad (offset : Nat) (lines : List RawLine)
    (chunks : List Chunk) (skipped : Nat) (hbad : RawLine.bad ∈ lines) :
    load_indexable_chunksAux offset none lines chunks skipped
      = Except.error LoadError.parse_error := by
  induction lines generalizing chunks skipped with
  | nil => simp at hbad
  | cons l ls ih =>
    cases l with
    | bad => rfl
    | ok c =>
      have hbad' : RawLine.bad ∈ ls := by
        rcases List.mem_cons.mp hbad with h | h
        · exact absurd h.symm (by simp)
        · exact h
      unfold load_indexable_chunksAux
      by_cases hu : usable c = false
      · rw [if_pos hu]
        exact ih _ _ hbad'
      · rw [if_neg hu]
        by_cases ho : chunks.length + skipped < offset
        · rw [if_pos ho]
          exact ih _ _ hbad'
        · rw [if_neg ho]
          rw [show countReached none chunks.length = false from rfl]
          simp only [Bool.false_eq_true, if_false]
          exact ih _ _ hbad'

theorem load_chunksAux_bad (count : Option Nat) (lines : List RawLine)
    (off : Nat) (chunks : List Chunk) (i : Nat)
    (hbad : lines[i]? = some RawLine.bad) (hoff : off ≤ i)
    (hcount : ∀ k, count = some k → chunks.length + (i - off) < k) :
    load_chunksAux count lines off chunks = Except.error LoadError.parse_error := by
  induction lines generalizing off chunks i with
  | nil => simp at hbad
  | cons l ls ih =>
    cases off with
    | succ o =>
      cases i with
      | zero => omega
      | succ j =>
        rw [show load_chunksAux count (l :: ls) (o + 1) chunks
              = load_chunksAux count ls o chunks from rfl]
        refine ih o chunks j (by simpa using hbad) (by omega) ?_
        intro k hk
        have := hcount k hk
        omega
    | zero =>
      unfold load_chunksAux
      have hnotreached : countReached count chunks.length = false := by
        rcases count with _ | k
        · rfl
        · have := hcount k rfl
          simp only [countReached, decide_eq_false_iff_not]
          omega
      rw [hnotreached]
      simp only [Bool.false_eq_true, if_false]
      cases l with
      | bad => rfl
      | ok c =>
        cases i with
        | zero => simp at hbad
        | succ j =>
          refine ih 0 (chunks ++ [c]) j (by simpa using hbad) (by omega) ?_
          intro k hk
          have := hcount k hk
          simp only [List.length_append, List.length_cons, List.length_nil]
          omega

/-- C8 amended: a malformed line aborts the load with a parse error — never
skipped, never returning a windowed list — exactly when the loader parses it.
The filtered loader (load_indexable_chunks) parses every line until the count
window is filled, so with no count limit any malformed line aborts the load;
the raw-line loader (load_chunks) does not parse lines below the raw offset
or past the point where the count window fills, so a malformed line aborts
its load exactly when it sits at a raw position at or beyond the offset and
(when a count is given) before the window has filled. -/
theorem c8_parse_error_aborts :
    (∀ (offset : Nat) (lines : List RawLine), RawLine.bad ∈ lines →
      load_indexable_chunks offset none lines = Except.error LoadError.parse_error) ∧
    (∀ (offset : Nat) (count : Option Nat) (lines : List RawLine) (i : Nat),
      lines[i]? = some RawLine.bad → offset ≤ i →
      (∀ k, count = some k → i < offset + k) →
      load_chunks offset count lines = Except.error LoadError.parse_error) := by
  constructor
  · intro offset lines hbad
    exact load_indexable_chunksAux_bad offset lines [] 0 hbad
  · intro offset count lines i hbad hoff hcount
    refine load_chunksAux_bad count lines offset [] i hbad hoff ?_
    intro k hk
    have := hcount k hk
    simp only [List.length_nil]
    omega

/-- C8 witness: a store consisting of a single malformed line aborts both
loaders with a parse error. -/
theorem c8_witness :
    load_indexable_chunks 0 none [RawLine.bad] = Except.error LoadError.parse_error ∧
    load_chunks 0 (some 5) [RawLine.bad] = Except.error LoadError.parse_error := by
  constructor
  · exact c8_parse_error_aborts.1 0 [RawLine.bad] (by decide)
  · refine c8_parse_error_aborts.2 0 (some 5) [RawLine.bad] 0 (by decide) (by decide) ?_
    intro k hk
    simp only [Option.some.injEq] at hk
    omega

/-! ## Partition planner (C2) -/

theorem plan_getElem (total n p : Nat) (hp : p < n) :
    (plan total n)[p]? = some
      (p * (total / n), if p < n - 1 then total / n else total - p * (total / n)) := by
  unfold plan per_pod
  rw [List.getElem?_map, List.getElem?_range hp]
  rfl

/-- C2: for every total and every number of workers n >= 1, each of the first
n - 1 workers is planned a window of count total / n at offset p * (total / n),
the last worker is planned the remainder total - (total / n) * (n - 1) at the
matching offset, and every position below total lies in exactly one planned
window — the windows are contiguous, non-overlapping, and cover the range. -/
theorem c2_plan_coverage (total n : Nat) (hn : 1 ≤ n) :
    (∀ p, p < n - 1 →
      (plan total n)[p]? = some (p * (total / n), total / n)) ∧
    (plan total n)[n - 1]? = some ((n - 1) * (total / n), total - (total / n) * (n - 1)) ∧
    (∀ j, j < total → ∃! p : Nat, ∃ w : Nat × Nat, (plan total n)[p]? = some w ∧ inWindow w j) := by
  set q := total / n with hq
  have hqn : q * n ≤ total := by
    rw [hq]
    exact Nat.div_mul_le_self total n
  refine ⟨?_, ?_, ?_⟩
  · intro p hp
    rw [plan_getElem total n p (by omega), if_pos hp]
  · rw [plan_getElem total n (n - 1) (by omega), if_neg (by omega)]
    rw [Nat.mul_comm (total / n) (n - 1)]
  · intro j hj
    have hlastoff : (n - 1) * q ≤ total := by
      calc (n - 1) * q ≤ n * q := Nat.mul_le_mul_right q (by omega)
      _ = q * n := Nat.mul_comm n q
      _ ≤ total := hqn
    have hlast_get : (plan total n)[n - 1]? = some ((n - 1) * q, total - (n - 1) * q) := by
      rw [plan_getElem total n (n - 1) (by omega), if_neg (by omega)]
    have huniq_small : ∀ p, p < n - 1 →
        (∃ w, (plan total n)[p]? = some w ∧ inWindow w j) → 0 < q ∧ p = j / q := by
      intro p hp ⟨w, hw, hwin⟩
      rw [plan_getElem total n p (by omega), if_pos hp] at hw
      injection hw with hw
      subst hw
      obtain ⟨h1, h2⟩ := hwin
      simp only at h1 h2
      have hq0 : 0 < q := by omega
      refine ⟨hq0, ?_⟩
      have hle : p ≤ j / q := (Nat.le_div_iff_mul_le hq0).mpr h1
      have hlt : j / q < p + 1 := by
        rw [Nat.div_lt_iff_lt_mul hq0]
        calc j < p * q + q := h2
        _ = (p + 1) * q := by ring
      omega
    by_cases hq0 : q = 0
    · refine ⟨n - 1, ⟨((n - 1) * q, total - (n - 1) * q), hlast_get, ?_⟩, ?_⟩
      · constructor
        · simp [hq0]
        · simp only [hq0, Nat.mul_zero, Nat.zero_add, Nat.sub_zero]
          omega
      · intro p hp
        obtain ⟨w, hw, hwin⟩ := hp
        have hplt : p < n := by
          by_contra hge
          rw [List.getElem?_eq_none] at hw
          · simp at hw
          · unfold plan
            simp only [List.length_map, List.length_range]
            omega
        by_cases hsm : p < n - 1
        · obtain ⟨hpos, _⟩ := huniq_small p hsm ⟨w, hw, hwin⟩
          omega
        · omega
    · have hqpos : 0 < q := Nat.pos_of_ne_zero hq0
      by_cases hbig : n - 1 ≤ j / q
      · refine ⟨n - 1, ⟨((n - 1) * q, total - (n - 1) * q), hlast_get, ?_, ?_⟩, ?_⟩
        · calc (n - 1) * q ≤ (j / q) * q := Nat.mul_le_mul_right q hbig
          _ ≤ j := Nat.div_mul_le_self j q
        · omega
        · intro p hp
          obtain ⟨w, hw, hwin⟩ := hp
          have hplt : p < n := by
            by_contra hge
            rw [List.getElem?_eq_none] at hw
            · simp at hw
            · unfold plan
              simp only [List.length_map, List.length_range]
              omega
          by_cases hsm : p < n - 1
          · obtain ⟨_, hpj⟩ := huniq_small p hsm ⟨w, hw, hwin⟩
            omega
          · omega
      · have hjq : j / q < n - 1 := by omega
        refine ⟨j / q, ⟨(j / q * q, q), ?_, ?_, ?_⟩, ?_⟩
        · rw [plan_getElem total n (j / q) (by omega), if_pos hjq]
        · exact Nat.div_mul_le_self j q
        · have h1 := Nat.div_add_mod j q
          have h2 := Nat.mod_lt j hqpos
          have h3 : j / q * q = q * (j / q) := Nat.mul_comm _ _
          simp only
          omega
        · intro p hp
          obtain ⟨w, hw, hwin⟩ := hp
          have hplt : p < n := by
            by_contra hge
            rw [List.getElem?_eq_none] at hw
            · simp at hw
            · unfold plan
              simp only [List.length_map, List.length_range]
              omega
          by_cases hsm : p < n - 1
          · exact (huniq_small p hsm ⟨w, hw, hwin⟩).2
          · exfalso
            have hpe : p = n - 1 := by omega
            subst hpe
            rw [hlast_get] at hw
            injection hw with hw
            subst hw
            obtain ⟨h1, h2⟩ := hwin
            simp only at h1
            have : n - 1 ≤ j / q := (Nat.le_div_iff_mul_le hqpos).mpr h1
            omega
  
/-- C2 witness: the plan for 7 chunks over 3 workers assigns the last worker
the window (4, 3), and position 5 lies in exactly one planned window. -/
theorem c2_witness :
    (plan 7 3)[3 - 1]? = some ((3 - 1) * (7 / 3), 7 - (7 / 3) * (3 - 1)) ∧
    (∃! p : Nat, ∃ w : Nat × Nat, (plan 7 3)[p]? = some w ∧ inWindow w 5) := by
  refine ⟨(c2_plan_coverage 7 3 (by decide)).2.1, ?_⟩
  exact (c2_plan_coverage 7 3 (by decide)).2.2 5 (by decide)
